import Mathlib

/-!
Verification of the nixdoc doc-comment parser (`src/parser.rs`, `src/lib.rs`,
`src/section.rs`, `src/error.rs`) against its natural-language specification.

Strings are modelled as lists of characters (`Str := List Char`), which makes
the Rust code's per-character operations (`chars()`, `char_indices`, `trim`,
`lines`) direct and keeps every definition executable.  Rust's
`char::is_whitespace` (the Unicode White_Space property) is modelled exactly;
`char::is_alphanumeric` and `str::to_lowercase` are modelled on their ASCII
fragments, which is the fragment exercised by every recognised section heading
and identifier in the repository.
-/

set_option maxRecDepth 20000

namespace Nixdoc

/-- Strings are lists of characters. -/
abbrev Str := List Char

/-- The apostrophe character (U+0027). -/
def sq : Char := Char.ofNat 39

/-- The backtick character (U+0060). -/
def bt : Char := Char.ofNat 96

/-- Rust `char::is_whitespace`: the Unicode White_Space property. -/
def rustIsWhitespace (c : Char) : Bool :=
  c = ' ' || c = '\t' || c = '\n' || c.toNat = 11 || c.toNat = 12 || c = '\r' ||
  c.toNat = 0x85 || c.toNat = 0xA0 || c.toNat = 0x1680 ||
  (0x2000 ≤ c.toNat && c.toNat ≤ 0x200A) ||
  c.toNat = 0x2028 || c.toNat = 0x2029 || c.toNat = 0x202F ||
  c.toNat = 0x205F || c.toNat = 0x3000

/-- Rust `char::is_alphanumeric`, restricted to its ASCII fragment
(`A`-`Z`, `a`-`z`, `0`-`9`); the full Unicode Alphabetic/number classes are
out of the model's scope. -/
def rustIsAlphanumeric (c : Char) : Bool :=
  (('A' ≤ c && c ≤ 'Z') || ('a' ≤ c && c ≤ 'z') || ('0' ≤ c && c ≤ '9'))

/-- Rust `char::to_lowercase`, restricted to its ASCII fragment. -/
def rustToLower (c : Char) : Char :=
  if 'A' ≤ c && c ≤ 'Z' then Char.ofNat (c.toNat + 32) else c

/-- Rust `str::to_lowercase` (ASCII fragment). -/
def rustLowercase (s : Str) : Str := s.map rustToLower

/-- Rust `str::trim_start`. -/
def rustTrimStart (s : Str) : Str := s.dropWhile rustIsWhitespace

/-- Rust `str::trim_end`. -/
def rustTrimEnd (s : Str) : Str := (s.reverse.dropWhile rustIsWhitespace).reverse

/-- Rust `str::trim`. -/
def rustTrim (s : Str) : Str := rustTrimEnd (rustTrimStart s)

/-- Rust `str::strip_prefix`. -/
def stripPre (p s : Str) : Option Str :=
  if p.isPrefixOf s then some (s.drop p.length) else none

/-- Rust `str::strip_suffix`. -/
def stripSuf (p s : Str) : Option Str :=
  if p.isSuffixOf s then some (s.take (s.length - p.length)) else none

/-- Strip one trailing carriage return, as Rust `str::lines` does on each
newline-terminated line. -/
def stripCR (l : Str) : Str :=
  if l.getLast? = some '\r' then l.dropLast else l

/-- Worker for `rustLines`; `acc` holds the current line, reversed. -/
def rustLinesAux : Str → Str → List Str
  | [], acc => if acc = [] then [] else [acc.reverse]
  | c :: rest, acc =>
    if c = '\n' then stripCR acc.reverse :: rustLinesAux rest []
    else rustLinesAux rest (c :: acc)

/-- Rust `str::lines`: split at `\n`, treating a `\r\n` pair as one line
ending; the final line ending is optional, and a trailing `\r` not followed
by `\n` stays on the last line. -/
def rustLines (s : Str) : List Str := rustLinesAux s []

/-- Join lines with `\n` (Rust `Vec::join("\n")`). -/
def joinNl : List Str → Str
  | [] => []
  | [l] => l
  | l :: rest => l ++ '\n' :: joinNl rest

/-- Rust `Iterator::min` on a list of naturals. -/
def minNat? : List Nat → Option Nat
  | [] => none
  | x :: xs =>
    some (match minNat? xs with
          | none => x
          | some m => Nat.min x m)

/-- Number of leading whitespace characters of a line
(Rust `line.chars().take_while(is_whitespace).count()`). -/
def leadingWs (l : Str) : Nat := (l.takeWhile rustIsWhitespace).length

/-- Embeds `parser.rs::normalize`: strip the common leading indentation (measured in
characters over the lines that are not entirely whitespace), blank lines
become empty, rejoin with `\n` and trim the surrounding whitespace. -/
def normalize (content : Str) : Str :=
  let lines := rustLines content
  let minIndent : Nat :=
    (minNat? ((lines.filter (fun l => rustTrim l ≠ [])).map leadingWs)).getD 0
  let dedented : List Str :=
    lines.map (fun l => if rustTrim l = [] then [] else l.drop minIndent)
  rustTrim (joinNl dedented)

example : normalize "  hello\n  world".data = "hello\nworld".data := by decide
example : normalize "\n  hello\n\n  world\n".data = "hello\n\nworld".data := by decide
example : normalize "  a\n    b".data = "a\n  b".data := by decide
example : normalize "\n\n\n".data = "".data := by decide
example : normalize " hello ".data = "hello".data := by decide

/-- Embeds `parser.rs::parse_fence_open`: if a line (already stripped of leading
whitespace) opens a fenced code block, return the fence character, the fence
length and the optional language token. -/
def parse_fence_open (trimmed : Str) : Option (Char × Nat × Option Str) :=
  let fc? : Option Char :=
    if [bt, bt, bt].isPrefixOf trimmed then some bt
    else if ['~', '~', '~'].isPrefixOf trimmed then some '~'
    else none
  match fc? with
  | none => none
  | some fenceChar =>
    let fenceLen := (trimmed.takeWhile (fun c => c = fenceChar)).length
    let after := rustTrim (trimmed.drop fenceLen)
    let language : Option Str :=
      if after = [] then none
      else
        let lang := after.takeWhile (fun c => ¬ rustIsWhitespace c)
        if lang = [] then none else some lang
    some (fenceChar, fenceLen, language)

/-- Embeds `parser.rs::is_closing_fence`: `trimmed` closes a block opened with
`fenceLen` repetitions of `fenceChar` iff it starts with at least `fenceLen`
of them followed by spaces only. -/
def is_closing_fence (trimmed : Str) (fenceChar : Char) (fenceLen : Nat) : Bool :=
  let count := (trimmed.takeWhile (fun c => c = fenceChar)).length
  if count < fenceLen then false
  else (trimmed.drop count).all (fun c => c = ' ')

/-- Embeds `section.rs::SectionKind`. The Rust variant names `Type` and `Example`
are reserved words in Lean, hence the `Sec` suffix on every constructor. -/
inductive SectionKind where
  | typeSec
  | argumentsSec
  | exampleSec
  | examplesSec
  | noteSec
  | notesSec
  | warningSec
  | deprecatedSec
  | unknownSec (text : Str)
deriving DecidableEq, Repr

/-- Embeds `section.rs::SectionKind::from_heading` (case-insensitive table). -/
def SectionKind.from_heading (heading : Str) : SectionKind :=
  let h := rustLowercase heading
  if h = "type".data then .typeSec
  else if h = "arguments".data ∨ h = "args".data then .argumentsSec
  else if h = "example".data then .exampleSec
  else if h = "examples".data then .examplesSec
  else if h = "note".data then .noteSec
  else if h = "notes".data then .notesSec
  else if h = "warning".data ∨ h = "warnings".data ∨ h = "caution".data then .warningSec
  else if h = "deprecated".data then .deprecatedSec
  else .unknownSec h

/-- Embeds `section.rs::SectionKind::is_known`. -/
def SectionKind.is_known : SectionKind → Bool
  | .unknownSec _ => false
  | _ => true

/-- Embeds `section.rs::Section`. -/
structure Section where
  heading : Str
  content : Str
deriving DecidableEq, Repr

/-- Embeds `section.rs::Section::kind`. -/
def Section.kind (s : Section) : SectionKind := SectionKind.from_heading s.heading

/-- Embeds `error.rs::WarningKind`. -/
inductive WarningKind where
  | EmptySection
  | UnknownSection
deriving DecidableEq, Repr

/-- Embeds `error.rs::ParseWarning`. -/
structure ParseWarning where
  kind : WarningKind
  message : Str
deriving DecidableEq, Repr

/-- Embeds `error.rs::ParseError`. -/
inductive ParseError where
  | NotDocComment
  | UnclosedComment
  | EmptyComment
deriving DecidableEq, Repr

/-- The message `format!("section '{}' has no content", heading)`. -/
def emptySectionMessage (heading : Str) : Str :=
  "section ".data ++ [sq] ++ heading ++ [sq] ++ " has no content".data

/-- The message `format!("unrecognized section heading: '{}'", heading)`. -/
def unknownSectionMessage (heading : Str) : Str :=
  "unrecognized section heading: ".data ++ [sq] ++ heading ++ [sq]

/-- Embeds `parser.rs::flush_section`: trim the joined body, append an
`EmptySection` warning when it is empty, and append the section. -/
def flush_section (heading : Str) (lines : List Str)
    (sections : List Section) (warnings : List ParseWarning) :
    List Section × List ParseWarning :=
  let content := rustTrim (joinNl lines)
  let warnings :=
    if content = [] then warnings ++ [⟨.EmptySection, emptySectionMessage heading⟩]
    else warnings
  (sections ++ [⟨heading, content⟩], warnings)

/-- The mutable locals of `parser.rs::parse_sections`, gathered in a record
so that the per-line loop body becomes a fold step. -/
structure SegState where
  sections : List Section
  descriptionLines : List Str
  inDescription : Bool
  currentHeading : Option Str
  sectionLines : List Str
  inCodeBlock : Bool
  fenceChar : Char
  fenceLen : Nat
  warnings : List ParseWarning
deriving DecidableEq, Repr

/-- The fence-tracking update at the top of the line loop of
`parser.rs::parse_sections`: code-block state is updated before the heading
check. -/
def segFence (st : SegState) (trimmed : Str) : SegState :=
  if ¬ st.inCodeBlock then
    match parse_fence_open trimmed with
    | some (fc, fl, _) => { st with inCodeBlock := true, fenceChar := fc, fenceLen := fl }
    | none => st
  else if is_closing_fence trimmed st.fenceChar st.fenceLen then
    { st with inCodeBlock := false }
  else st

/-- The heading check and accumulation in the line loop of
`parser.rs::parse_sections`, run on the fence-updated state. -/
def segHeading (st : SegState) (line : Str) : SegState :=
  if (¬ st.inCodeBlock ∧ "# ".data.isPrefixOf line) ∧ rustTrim (line.drop 2) ≠ [] then
    let heading := rustTrim (line.drop 2)
    let st :=
      if st.inDescription then { st with inDescription := false }
      else
        match st.currentHeading with
        | some h =>
          let (secs, warns) := flush_section h st.sectionLines st.sections st.warnings
          { st with sections := secs, warnings := warns, sectionLines := [] }
        | none => st
    { st with currentHeading := some heading }
  else if st.inDescription then
    { st with descriptionLines := st.descriptionLines ++ [line] }
  else
    { st with sectionLines := st.sectionLines ++ [line] }

/-- One iteration of the `for line in content.lines()` loop of
`parser.rs::parse_sections`: update the fence state, then decide whether the
line is a heading, flushing or accumulating accordingly. -/
def segStep (st : SegState) (line : Str) : SegState :=
  segHeading (segFence st (rustTrimStart line)) line

/-- The initial state of `parser.rs::parse_sections`. -/
def segInit : SegState :=
  ⟨[], [], true, none, [], false, bt, 3, []⟩

/-- Embeds `parser.rs::parse_sections`: fold the line loop, then flush the pending
section (or absorb the remaining lines into the description). -/
def parse_sections (content : Str) : Str × List Section × List ParseWarning :=
  let st := (rustLines content).foldl segStep segInit
  match st.currentHeading with
  | some h =>
    let (secs, warns) := flush_section h st.sectionLines st.sections st.warnings
    (rustTrim (joinNl st.descriptionLines), secs, warns)
  | none =>
    (rustTrim (joinNl (st.descriptionLines ++ st.sectionLines)), st.sections, st.warnings)

/-- Embeds `lib.rs::DocComment`. -/
structure DocComment where
  raw_content : Str
  description : Str
  sections : List Section
  warnings : List ParseWarning
deriving DecidableEq, Repr

/-- The body of `parser.rs::parse` after delimiter stripping: normalize,
reject blank content, segment into sections, and append one
`UnknownSection` warning per unrecognized heading. -/
def parseContent (inner : Str) : Except ParseError DocComment :=
  if rustTrim (normalize inner) = [] then .error .EmptyComment
  else
    match parse_sections (normalize inner) with
    | (description, sections, warnings) =>
      .ok ⟨normalize inner, description, sections,
           warnings ++
             (sections.filter (fun s => ¬ s.kind.is_known)).map
               (fun s => ⟨.UnknownSection, unknownSectionMessage s.heading⟩)⟩

/-- Embeds `parser.rs::parse`: strip the `/**` and `*/` delimiters off the trimmed
input, then run `parseContent` on what is between them. -/
def parse (input : Str) : Except ParseError DocComment :=
  match stripPre "/**".data (rustTrim input) with
  | none => .error .NotDocComment
  | some afterOpen =>
    match stripSuf "*/".data afterOpen with
    | none => .error .UnclosedComment
    | some inner => parseContent inner

/-- Embeds `lib.rs::DocComment::is_doc_comment`. -/
def is_doc_comment (input : Str) : Bool :=
  let t := rustTrim input
  "/**".data.isPrefixOf t && "*/".data.isSuffixOf t

/-- Embeds `lib.rs::DocComment::section` (renamed: `section` is a Lean keyword):
first section whose heading matches `name` case-insensitively. -/
def DocComment.getSection (d : DocComment) (name : Str) : Option Section :=
  let nameLower := rustLowercase name
  d.sections.find? (fun s => rustLowercase s.heading = nameLower)

/-- Embeds `section.rs::Argument`. -/
structure Argument where
  name : Str
  description : Str
deriving DecidableEq, Repr

/-- The mutable locals of `parser.rs::parse_arguments`. -/
structure ArgState where
  arguments : List Argument
  currentName : Option Str
  currentDesc : Str
deriving DecidableEq, Repr

/-- One iteration of the line loop of `parser.rs::parse_arguments`. -/
def argStep (st : ArgState) (line : Str) : ArgState :=
  let trimmed := rustTrim line
  match stripPre "- [".data trimmed with
  | some rest =>
    -- Flush the previous argument before starting a new one.
    let st : ArgState :=
      match st.currentName with
      | some name =>
        ⟨st.arguments ++ [⟨name, rustTrim st.currentDesc⟩], none, []⟩
      | none => st
    match rest.findIdx? (fun c => c = ']') with
    | some bracketEnd =>
      let name := rustTrim (rest.take bracketEnd)
      if name ≠ [] then
        { st with currentName := some name,
                  currentDesc := rustTrim (rest.drop (bracketEnd + 1)) }
      else st
    | none => st
  | none =>
    if st.currentName.isSome ∧ trimmed ≠ [] ∧
        (match line.head? with
         | some c => rustIsWhitespace c
         | none => false) = true then
      { st with currentDesc :=
          (if st.currentDesc ≠ [] then st.currentDesc ++ [' '] else []) ++ trimmed }
    else st

/-- Embeds `parser.rs::parse_arguments`: fold the line loop, then flush the last
pending argument. -/
def parse_arguments (content : Str) : List Argument :=
  let st := (rustLines content).foldl argStep ⟨[], none, []⟩
  match st.currentName with
  | some name => st.arguments ++ [⟨name, rustTrim st.currentDesc⟩]
  | none => st.arguments

/-- Embeds `section.rs::Example`. -/
structure Example where
  language : Option Str
  code : Str
deriving DecidableEq, Repr

/-- The mutable locals of `parser.rs::parse_examples`. -/
structure ExState where
  examples : List Example
  inBlock : Bool
  currentLanguage : Option Str
  currentCode : Str
  blockFenceChar : Char
  blockFenceLen : Nat
deriving DecidableEq, Repr

/-- One iteration of the line loop of `parser.rs::parse_examples`. -/
def exStep (st : ExState) (line : Str) : ExState :=
  let trimmed := rustTrimStart line
  if ¬ st.inBlock then
    match parse_fence_open trimmed with
    | some (fc, fl, lang) =>
      { st with inBlock := true, blockFenceChar := fc, blockFenceLen := fl,
                currentLanguage := lang, currentCode := [] }
    | none => st
  else if is_closing_fence trimmed st.blockFenceChar st.blockFenceLen then
    { st with examples := st.examples ++ [⟨st.currentLanguage, st.currentCode⟩],
              currentLanguage := none, currentCode := [], inBlock := false }
  else
    { st with currentCode := st.currentCode ++ line ++ ['\n'] }

/-- The initial state of `parser.rs::parse_examples`. -/
def exInit : ExState := ⟨[], false, none, [], bt, 3⟩

/-- Embeds `parser.rs::parse_examples`: fold the line loop; an unclosed block with
non-empty accumulated code is salvaged as a final example. -/
def parse_examples (content : Str) : List Example :=
  let st := (rustLines content).foldl exStep exInit
  if st.inBlock ∧ st.currentCode ≠ [] then
    st.examples ++ [⟨st.currentLanguage, st.currentCode⟩]
  else st.examples

/-- The line loop of `parser.rs::extract_first_code_block`, written as a
recursion because the Rust loop returns early at the first closing fence. -/
def extractFCBGo : List Str → Bool → Str → Char → Nat → Option Str
  | [], inBlock, result, _, _ =>
    if inBlock ∧ result ≠ [] then some result else none
  | line :: rest, inBlock, result, fc, fl =>
    let trimmed := rustTrimStart line
    if ¬ inBlock then
      match parse_fence_open trimmed with
      | some (c, l, _) => extractFCBGo rest true result c l
      | none => extractFCBGo rest false result fc fl
    else if is_closing_fence trimmed fc fl then some result
    else extractFCBGo rest true (result ++ line ++ ['\n']) fc fl

/-- Embeds `parser.rs::extract_first_code_block`: the interior of the first fenced
code block, or the partial content of an unclosed one when non-empty. -/
def extract_first_code_block (content : Str) : Option Str :=
  extractFCBGo (rustLines content) false [] bt 3

/-- Helper for `parser.rs::parse_inline_type_line`: index of the first `::`
occurrence. -/
def findColons : Str → Option Nat
  | [] => none
  | c :: rest =>
    if c = ':' ∧ rest.head? = some ':' then some 0
    else (findColons rest).map (· + 1)

/-- Embeds `parser.rs::parse_inline_type_line`: accept `line` when the text before
the first `::`, trimmed, is a non-empty run of identifier characters and the
text after, trimmed, is non-empty. -/
def parse_inline_type_line (line : Str) : Option Str :=
  match findColons line with
  | none => none
  | some sep =>
    let before := rustTrim (line.take sep)
    let after := rustTrim (line.drop (sep + 2))
    if before = [] ∨ after = [] then none
    else
      let isValidIdent :=
        before ≠ [] ∧
          before.all (fun c => rustIsAlphanumeric c || c = '_' || c = '-' || c = sq)
      if isValidIdent then some line else none

/-- Embeds `parser.rs::extract_inline_type_sig`: first line whose trimmed form is a
legacy `identifier :: type` annotation. -/
def extract_inline_type_sig (content : Str) : Option Str :=
  (rustLines content).findSome? (fun line => parse_inline_type_line (rustTrim line))

/-- Embeds `lib.rs::DocComment::type_sig`: modern `# Type` section first, legacy
inline annotation as the fallback. -/
def DocComment.type_sig (d : DocComment) : Option Str :=
  match d.getSection "Type".data with
  | some s => extract_first_code_block s.content
  | none => extract_inline_type_sig d.description

/-- Embeds `lib.rs::DocComment::arguments`. -/
def DocComment.arguments (d : DocComment) : List Argument :=
  match (d.getSection "Arguments".data).or (d.getSection "Args".data) with
  | some s => parse_arguments s.content
  | none => []

/-- Embeds `lib.rs::DocComment::examples`. -/
def DocComment.examples (d : DocComment) : List Example :=
  (d.sections.filter (fun s =>
      rustLowercase s.heading = "example".data ∨
      rustLowercase s.heading = "examples".data)).flatMap
    (fun s => parse_examples s.content)

deriving instance DecidableEq for Except

/-- Whether `needle` occurs as a contiguous substring of `hay` (Rust `str::contains`). -/
def containsSub (needle hay : Str) : Bool :=
  match hay with
  | [] => needle.isPrefixOf ([] : Str)
  | _ :: rest => needle.isPrefixOf hay || containsSub needle rest

/-- The document of a successful parse (a reviewer-side convenience used to
state concrete facts about parsed inputs; inputs it is applied to are
verified to parse successfully). -/
def parseOk (s : Str) : DocComment :=
  match parse s with
  | .ok d => d
  | .error _ => ⟨[], [], [], []⟩

/-! ### Helper lemmas about the Rust string primitives -/

theorem stripPre_eq_none {p s : Str} :
    stripPre p s = none ↔ ¬ p.isPrefixOf s := by
  unfold stripPre
  split <;> simp_all

theorem stripPre_eq_some {p s r : Str} :
    stripPre p s = some r ↔ (p.isPrefixOf s ∧ r = s.drop p.length) := by
  unfold stripPre
  split
  next h =>
    constructor
    · intro he
      injection he with he
      exact ⟨h, he.symm⟩
    · intro ⟨_, hr⟩
      rw [hr]
  next h =>
    constructor
    · intro he
      exact absurd he (by simp)
    · intro ⟨hp, _⟩
      exact absurd hp h

theorem stripSuf_eq_none {p s : Str} :
    stripSuf p s = none ↔ ¬ p.isSuffixOf s := by
  unfold stripSuf
  split <;> simp_all

theorem stripSuf_eq_some {p s r : Str} :
    stripSuf p s = some r ↔ (p.isSuffixOf s ∧ r = s.take (s.length - p.length)) := by
  unfold stripSuf
  split
  next h =>
    constructor
    · intro he
      injection he with he
      exact ⟨h, he.symm⟩
    · intro ⟨_, hr⟩
      rw [hr]
  next h =>
    constructor
    · intro he
      exact absurd he (by simp)
    · intro ⟨hp, _⟩
      exact absurd hp h

/-- The function `parseContent` only ever yields `EmptyComment` or a document: the
delimiter errors are decided before it runs. -/
theorem parseContent_cases (inner : Str) :
    parseContent inner = .error .EmptyComment ∨ ∃ d, parseContent inner = .ok d := by
  unfold parseContent
  split
  · exact Or.inl rfl
  · rcases h : parse_sections (normalize inner) with ⟨a, b, c⟩
    exact Or.inr ⟨_, rfl⟩

/-! ### C1: when does parse fail with UnclosedComment? -/

/-- C1 (counterexample): the input `/**/` trims to itself, starts with `/**`
and ends with `*/`, yet `parse` returns `UnclosedComment`, because the
suffix check runs on the text left after removing the `/**` prefix. -/
theorem c1_counterexample :
    ("/**".data.isPrefixOf (rustTrim "/**/".data) ∧
      "*/".data.isSuffixOf (rustTrim "/**/".data)) ∧
    parse "/**/".data = .error .UnclosedComment := by
  decide

/-- C1 (amended): `parse` fails with `UnclosedComment` exactly when the
trimmed input starts with `/**` and the text remaining after removing that
prefix does not end with `*/`. -/
theorem c1_unclosed_iff (s : Str) :
    parse s = .error .UnclosedComment ↔
      ("/**".data.isPrefixOf (rustTrim s) ∧
        ¬ "*/".data.isSuffixOf ((rustTrim s).drop 3)) := by
  unfold parse
  split
  next h =>
    rw [stripPre_eq_none] at h
    simp_all
  next afterOpen h =>
    rw [stripPre_eq_some] at h
    obtain ⟨hp, rfl⟩ := h
    have hlen : ("/**".data).length = 3 := rfl
    rw [hlen]
    split
    next h2 =>
      rw [stripSuf_eq_none] at h2
      simp [hp, h2]
    next inner h2 =>
      rw [stripSuf_eq_some] at h2
      obtain ⟨hs, rfl⟩ := h2
      constructor
      · intro hcontra
        exfalso
        rcases parseContent_cases (List.take _ (List.drop 3 (rustTrim s))) with hc | ⟨d, hc⟩ <;>
          rw [hc] at hcontra <;> exact absurd hcontra (by simp)
      · intro ⟨_, hns⟩
        exact absurd hs hns

/-- C1 witness: a concrete unclosed input together with the amended
characterization applied to it. -/
theorem c1_witness :
    parse "/** unclosed".data = .error .UnclosedComment ↔
      ("/**".data.isPrefixOf (rustTrim "/** unclosed".data) ∧
        ¬ "*/".data.isSuffixOf ((rustTrim "/** unclosed".data).drop 3)) :=
  c1_unclosed_iff "/** unclosed".data

/-! ### C10: parse success implies the cheap syntactic check -/

/-- C10: whenever `parse` succeeds, `is_doc_comment` accepts the input, so
`is_doc_comment` is a sound pre-filter. -/
theorem c10_parse_ok_implies_check (s : Str) (d : DocComment)
    (h : parse s = .ok d) : is_doc_comment s = true := by
  unfold parse at h
  split at h
  next => exact absurd h (by simp)
  next afterOpen hp =>
    split at h
    next => exact absurd h (by simp)
    next inner hsf =>
      rw [stripPre_eq_some] at hp
      rw [stripSuf_eq_some] at hsf
      unfold is_doc_comment
      have h1 : "/**".data.isPrefixOf (rustTrim s) = true := hp.1
      have h2 : "*/".data.isSuffixOf (rustTrim s) = true := by
        rw [List.isSuffixOf_iff_suffix]
        have hsub : afterOpen <:+ rustTrim s := hp.2 ▸ List.drop_suffix _ _
        exact (List.isSuffixOf_iff_suffix.mp hsf.1).trans hsub
      simp [h1, h2]

/-- C10 witness: the soundness direction at a concrete parseable input. -/
theorem c10_witness : is_doc_comment "/** hello */".data = true :=
  c10_parse_ok_implies_check "/** hello */".data
    (parseOk "/** hello */".data) (by decide)

/-! ### C2: the `- []` line in the Arguments parser -/

/-- C2 (counterexample): contrary to the claim, a `- []` line does flush the
previously open argument, so a later indented line no longer appends to it:
the result keeps the description `x`, not `x more`. -/
theorem c2_counterexample :
    parse_arguments "- [a] x\n- []\n  more".data = [⟨"a".data, "x".data⟩] ∧
    parse_arguments "- [a] x\n- []\n  more".data ≠ [⟨"a".data, "x more".data⟩] := by
  decide

/-- C2 (amended): a `- []` line starts no new argument, but it does flush
the previously open argument; afterwards no argument is open, so indented
lines that are not argument entries are ignored. -/
theorem c2_empty_name_flushes :
    (∀ st n line, st.currentName = some n → rustTrim line = "- []".data →
      argStep st line = ⟨st.arguments ++ [⟨n, rustTrim st.currentDesc⟩], none, []⟩) ∧
    (∀ st line, st.currentName = none →
      stripPre "- [".data (rustTrim line) = none → argStep st line = st) ∧
    parse_arguments "- [a] x\n- []\n  more".data = [⟨"a".data, "x".data⟩] := by
  refine ⟨?_, ?_, by decide⟩
  · intro st n line hn ht
    have h1 : stripPre "- [".data "- []".data = some "]".data := by decide
    have h2 : ("]".data).findIdx? (fun c => decide (c = ']')) = some 0 := by decide
    have h3 : rustTrim (List.take 0 "]".data) = [] := by decide
    simp only [argStep, ht, h1, hn, h2, h3, ne_eq, not_true_eq_false, if_false]
  · intro st line hn ht
    simp only [argStep, ht, hn]
    simp [hn]

/-- C2 witness: the amended behavior at concrete states — flushing on
`- []` while an argument is open, and ignoring an indented line when no
argument is open. -/
theorem c2_witness :
    argStep ⟨[], some "a".data, "x".data⟩ "- []".data =
      ⟨[⟨"a".data, "x".data⟩], none, []⟩ ∧
    argStep ⟨[⟨"a".data, "x".data⟩], none, []⟩ "  more".data =
      ⟨[⟨"a".data, "x".data⟩], none, []⟩ := by
  constructor
  · have h := c2_empty_name_flushes.1 ⟨[], some "a".data, "x".data⟩
      "a".data "- []".data rfl (by decide)
    simpa using h
  · exact c2_empty_name_flushes.2.1 ⟨[⟨"a".data, "x".data⟩], none, []⟩
      "  more".data rfl (by decide)

/-! ### C3: unclosed fences in the Examples parser -/

/-- C3 (counterexample): a body consisting of a lone opening fence leaves
the parser inside a block with empty accumulated code, and that block is
discarded — no `Example` with empty code is emitted, contrary to the
claim. -/
theorem c3_counterexample :
    parse_examples [bt, bt, bt] = [] ∧
    parse_examples [bt, bt, bt] ≠ [⟨none, []⟩] := by
  decide

/-- C3 (amended): when the fold over the body's lines ends inside an open
block, the accumulated content is salvaged as one final `Example` exactly
when it is non-empty; an unclosed block with empty content is dropped. -/
theorem c3_unclosed_salvage :
    (∀ content, ((rustLines content).foldl exStep exInit).inBlock = true →
      parse_examples content =
        ((rustLines content).foldl exStep exInit).examples ++
          (if ((rustLines content).foldl exStep exInit).currentCode = [] then []
           else [⟨((rustLines content).foldl exStep exInit).currentLanguage,
                 ((rustLines content).foldl exStep exInit).currentCode⟩])) ∧
    parse_examples "```nix\nfoo".data = [⟨some "nix".data, "foo\n".data⟩] ∧
    parse_examples [bt, bt, bt] = [] := by
  refine ⟨?_, by decide, by decide⟩
  intro content h
  simp only [parse_examples]
  by_cases hc : ((rustLines content).foldl exStep exInit).currentCode = []
  · rw [if_neg (by simp [hc]), if_pos hc]
    simp
  · rw [if_pos ⟨h, hc⟩, if_neg hc]

/-- C3 witness: the salvage equation applied at a concrete unclosed body. -/
theorem c3_witness :
    ((rustLines "```nix\nfoo".data).foldl exStep exInit).inBlock = true ∧
    parse_examples "```nix\nfoo".data =
      ((rustLines "```nix\nfoo".data).foldl exStep exInit).examples ++
        (if ((rustLines "```nix\nfoo".data).foldl exStep exInit).currentCode = [] then []
         else [⟨((rustLines "```nix\nfoo".data).foldl exStep exInit).currentLanguage,
               ((rustLines "```nix\nfoo".data).foldl exStep exInit).currentCode⟩]) :=
  ⟨by decide, c3_unclosed_salvage.1 "```nix\nfoo".data (by decide)⟩

/-! ### C4: type_sig precedence of the `# Type` section over the legacy scan -/

/-- C4: on a parsed document, the `Type` lookup is the first section whose
heading lowercases to `type`; when it exists, `type_sig` is exactly the
first-code-block extraction from its body (even when that is `none`), and
only when it does not exist does `type_sig` run the legacy inline scan over
the description. -/
theorem c4_type_sig_precedence (s : Str) (d : DocComment)
    (_hparse : parse s = .ok d) :
    (d.getSection "Type".data =
      d.sections.find? (fun sec => rustLowercase sec.heading = "type".data)) ∧
    (∀ sec, d.getSection "Type".data = some sec →
      d.type_sig = extract_first_code_block sec.content) ∧
    (d.getSection "Type".data = none →
      d.type_sig = extract_inline_type_sig d.description) := by
  refine ⟨rfl, ?_, ?_⟩
  · intro sec hsec
    unfold DocComment.type_sig
    rw [hsec]
  · intro hnone
    unfold DocComment.type_sig
    rw [hnone]

/-- A document carrying both a `# Type` section and a legacy inline
annotation (used to witness the precedence claim). -/
def bothFormsInput : Str :=
  "/**\n  f.\n  f :: LegacyType\n\n  # Type\n\n  ```\n  f :: ModernType\n  ```\n*/".data

/-- C4 witness: on `bothFormsInput`, `type_sig` returns the `# Type`
section's code block, never the legacy line (which is present in the
description). -/
theorem c4_witness :
    parse bothFormsInput = .ok (parseOk bothFormsInput) ∧
    (parseOk bothFormsInput).type_sig =
      extract_first_code_block
        (((parseOk bothFormsInput).getSection "Type".data).getD ⟨[], []⟩).content ∧
    (parseOk bothFormsInput).type_sig = some "f :: ModernType\n".data ∧
    extract_inline_type_sig (parseOk bothFormsInput).description =
      some "f :: LegacyType".data := by
  have hp : parse bothFormsInput = .ok (parseOk bothFormsInput) := by decide
  refine ⟨hp, ?_, by decide, by decide⟩
  exact (c4_type_sig_precedence bothFormsInput (parseOk bothFormsInput) hp).2.1
    (((parseOk bothFormsInput).getSection "Type".data).getD ⟨[], []⟩) (by decide)

/-! ### C9: the legacy inline type scanner -/

/-- Written from the spec's words: the text before the first `::`, trimmed,
is non-empty and consists solely of alphanumerics, `_`, `-` or `'`, and the
text after, trimmed, is non-empty. -/
def isInlineSigSpec (line : Str) : Bool :=
  match findColons line with
  | none => false
  | some sep =>
    if rustTrim (line.take sep) = [] then false
    else if rustTrim (line.drop (sep + 2)) = [] then false
    else (rustTrim (line.take sep)).all
      (fun c => rustIsAlphanumeric c || c = '_' || c = '-' || c = sq)

/-- The function `parse_inline_type_line` accepts exactly the lines matching the spec's
predicate, returning the line itself. -/
theorem parse_inline_type_line_eq (line : Str) :
    parse_inline_type_line line = if isInlineSigSpec line then some line else none := by
  unfold parse_inline_type_line isInlineSigSpec
  rcases findColons line with _ | sep
  · rfl
  · by_cases h1 : rustTrim (line.take sep) = []
    · simp [h1]
    · by_cases h2 : rustTrim (line.drop (sep + 2)) = []
      · simp [h1, h2]
      · by_cases h3 : (rustTrim (line.take sep)).all
            (fun c => rustIsAlphanumeric c || c = '_' || c = '-' || c = sq)
        · simp [h1, h2, h3]
        · simp [h1, h2, h3]

/-- Helper: a first-some search through a guard that returns its input is a
first-match search on the transformed list. -/
theorem findSome_guard_eq_find {α : Type} [DecidableEq α] (p : α → Bool) (f : α → α) :
    ∀ xs : List α,
      (xs.findSome? (fun x => if p (f x) then some (f x) else none)) =
        (xs.map f).find? p
  | [] => rfl
  | x :: xs => by
    simp only [List.findSome?_cons, List.map_cons, List.find?_cons]
    by_cases h : p (f x)
    · simp [h]
    · simp [h, findSome_guard_eq_find p f xs]

/-- C9: the legacy scanner returns the first trimmed line satisfying the
spec's predicate (`none` when no line matches); prose with spaces before
`::` is rejected; and on the mergeAttrs document, which has no `Type`
section, `type_sig` is the legacy line. -/
theorem c9_inline_type_scan :
    (∀ content, extract_inline_type_sig content =
      ((rustLines content).map rustTrim).find? isInlineSigSpec) ∧
    extract_inline_type_sig "A value of type foo :: bar is returned.".data = none ∧
    (parseOk "/**\n  Merge two attribute sets shallowly, right side trumps left\n  mergeAttrs :: attrs -> attrs -> attrs\n*/".data).type_sig =
      some "mergeAttrs :: attrs -> attrs -> attrs".data := by
  refine ⟨?_, by decide, by decide⟩
  intro content
  unfold extract_inline_type_sig
  have h : (fun line => parse_inline_type_line (rustTrim line)) =
      (fun line => if isInlineSigSpec (rustTrim line) then some (rustTrim line) else none) := by
    funext line
    exact parse_inline_type_line_eq (rustTrim line)
  rw [h, findSome_guard_eq_find]

/-! ### C6: what normalize computes -/

/-- The trimmed string is empty exactly when every character is whitespace. -/
theorem rustTrim_eq_nil_iff {l : Str} :
    rustTrim l = [] ↔ l.all rustIsWhitespace = true := by
  unfold rustTrim rustTrimEnd rustTrimStart
  rw [List.reverse_eq_nil_iff, List.dropWhile_eq_nil_iff]
  constructor
  · intro h
    rw [List.all_eq_true]
    intro c hc
    have hsplit : c ∈ l.takeWhile rustIsWhitespace ++ l.dropWhile rustIsWhitespace := by
      rw [List.takeWhile_append_dropWhile]
      exact hc
    rcases List.mem_append.mp hsplit with h1 | h1
    · exact List.mem_takeWhile_imp h1
    · exact h c (List.mem_reverse.mpr h1)
  · intro h c hc
    exact List.all_eq_true.mp h c ((List.dropWhile_sublist _).subset (List.mem_reverse.mp hc))

/-- Written from the spec's words (reference definition for the refinement):
(a) split into lines; (b) over the lines that are not entirely whitespace,
take the minimum count of leading whitespace characters (0 when there are
none); (c) remove exactly that many leading characters from every line,
whitespace-only lines becoming empty; (d) rejoin with line breaks and trim
the surrounding whitespace. -/
def normalizeSpec (s : Str) : Str :=
  let ls := rustLines s
  let common : Nat :=
    (minNat? ((ls.filter (fun l => !(l.all rustIsWhitespace))).map leadingWs)).getD 0
  rustTrim (joinNl (ls.map (fun l => if l.all rustIsWhitespace then [] else l.drop common)))

/-- C6: `normalize` computes exactly the spec's description — minimum
leading-whitespace character count over non-blank lines removed from every
line, blank lines emptied, rejoined and trimmed — and satisfies the three
concrete laws of the spec plus a multi-byte-whitespace instance (U+00A0
counts as one character). -/
theorem c6_normalize_spec :
    (∀ s, normalize s = normalizeSpec s) ∧
    normalize "  a\n    b".data = "a\n  b".data ∧
    normalize "foo\nbar".data = "foo\nbar".data ∧
    normalize "\n\n\n".data = [] ∧
    normalize " a\n  b".data = "a\n b".data := by
  refine ⟨?_, by decide, by decide, by decide, by decide⟩
  intro s
  simp only [normalize, normalizeSpec]
  have hfil : (rustLines s).filter (fun l => decide (rustTrim l ≠ [])) =
      (rustLines s).filter (fun l => !(l.all rustIsWhitespace)) := by
    refine List.filter_congr (fun l _ => ?_)
    by_cases h : rustTrim l = []
    · simp [h, rustTrim_eq_nil_iff.mp h]
    · have h2 : ¬ l.all rustIsWhitespace = true := fun hc => h (rustTrim_eq_nil_iff.mpr hc)
      simp [h, h2]
  rw [hfil]
  congr 1
  congr 1
  refine List.map_congr_left (fun l _ => ?_)
  by_cases h : rustTrim l = []
  · rw [if_pos h, if_pos (rustTrim_eq_nil_iff.mp h)]
  · rw [if_neg h, if_neg (fun hc => h (rustTrim_eq_nil_iff.mpr hc))]

/-! ### C5: fence containment suppresses headings -/

/-- C5: (1) while the segmenter is inside an open fence whose marker is not
`#` and whose length is positive — every fence the code records is a run of
3+ backticks or tildes — a line beginning with `# ` that does not close the
fence is accumulated as ordinary content of the current buffer, leaving the
sections, the current heading and the warnings untouched; (2) a closing
fence needs a leading run of the fence character at least as long as the
opening run, so any shorter run is not a close; (3) the fence state is
updated before the heading check, so the very line that opens a fence is
itself accumulated as content, never read as a heading; (4) end to end, a
4-backtick fence containing a `# Foo` line and 3-backtick runs yields a
single `Example` section swallowing them all. -/
theorem c5_fence_containment :
    (∀ st line, st.inCodeBlock = true → st.fenceChar ≠ '#' → 0 < st.fenceLen →
      "# ".data.isPrefixOf line →
      segStep st line =
        (if st.inDescription then
          { st with descriptionLines := st.descriptionLines ++ [line] }
         else { st with sectionLines := st.sectionLines ++ [line] })) ∧
    (∀ trimmed fc n, (trimmed.takeWhile (fun c => c = fc)).length < n →
      is_closing_fence trimmed fc n = false) ∧
    (∀ st line fc fl lang, st.inCodeBlock = false →
      parse_fence_open (rustTrimStart line) = some (fc, fl, lang) →
      segStep st line =
        (if st.inDescription then
          { st with inCodeBlock := true, fenceChar := fc, fenceLen := fl,
                    descriptionLines := st.descriptionLines ++ [line] }
         else
          { st with inCodeBlock := true, fenceChar := fc, fenceLen := fl,
                    sectionLines := st.sectionLines ++ [line] })) ∧
    (((parse_sections
        "d\n\n# Example\n\n````\n# Foo\n```\nx\n```\n````".data).2.1).map Section.heading =
      ["Example".data] ∧
     containsSub "# Foo".data
       (((parse_sections
         "d\n\n# Example\n\n````\n# Foo\n```\nx\n```\n````".data).2.1).head?.map
           Section.content |>.getD []) = true) := by
  refine ⟨?_, ?_, ?_, by decide, by decide⟩
  · intro st line hblock hchar hlen hpre
    obtain ⟨t, rfl⟩ : ∃ t, line = '#' :: ' ' :: t := by
      obtain ⟨t, ht⟩ := List.isPrefixOf_iff_prefix.mp hpre
      exact ⟨t, ht.symm⟩
    have htrim : rustTrimStart ('#' :: ' ' :: t) = '#' :: ' ' :: t := by
      unfold rustTrimStart
      rw [List.dropWhile_cons, if_neg (by decide)]
    have hclose : is_closing_fence ('#' :: ' ' :: t) st.fenceChar st.fenceLen = false := by
      unfold is_closing_fence
      have htake : (('#' :: ' ' :: t).takeWhile (fun c => c = st.fenceChar)).length = 0 := by
        rw [List.takeWhile_cons, if_neg (by simp [Ne.symm hchar])]
        rfl
      rw [htake, if_pos hlen]
    have hfence : segFence st (rustTrimStart ('#' :: ' ' :: t)) = st := by
      rw [htrim]
      simp only [segFence, hblock, hclose]
      simp
    unfold segStep
    rw [hfence]
    simp only [segHeading, hblock]
    simp

  · intro trimmed fc n h
    unfold is_closing_fence
    rw [if_pos h]

  · intro st line fc fl lang hblock hopen
    have hfence : segFence st (rustTrimStart line) =
        { st with inCodeBlock := true, fenceChar := fc, fenceLen := fl } := by
      simp only [segFence, hblock, hopen]
      simp
    unfold segStep
    rw [hfence]
    simp only [segHeading]
    simp

/-- C5 witness: the three state-level parts applied at concrete states and
lines. -/
theorem c5_witness :
    segStep ⟨[], [], false, some "Example".data, [], true, bt, 4, []⟩ "# Foo".data =
      ⟨[], [], false, some "Example".data, ["# Foo".data], true, bt, 4, []⟩ ∧
    is_closing_fence [bt, bt, bt] bt 4 = false ∧
    segStep segInit "```nix".data =
      { segInit with inCodeBlock := true, fenceChar := bt, fenceLen := 3,
                     descriptionLines := ["```nix".data] } := by
  refine ⟨?_, ?_, ?_⟩
  · have h := c5_fence_containment.1
      ⟨[], [], false, some "Example".data, [], true, bt, 4, []⟩ "# Foo".data
      rfl (by decide) (by decide) (by decide)
    simpa using h
  · exact c5_fence_containment.2.1 [bt, bt, bt] bt 4 (by decide)
  · have h := c5_fence_containment.2.2.1 segInit "```nix".data bt 3 (some "nix".data)
      rfl (by decide)
    simpa using h

/-! ### Idempotence of trimming -/

theorem dropWhile_head_false {α : Type} (p : α → Bool) :
    ∀ {l : List α} {c : α} {t : List α}, l.dropWhile p = c :: t → p c = false := by
  intro l
  induction l with
  | nil => intro c t h; cases h
  | cons a l ih =>
    intro c t h
    rw [List.dropWhile_cons] at h
    by_cases hp : p a
    · rw [if_pos hp] at h
      exact ih h
    · rw [if_neg hp] at h
      cases h
      exact Bool.not_eq_true _ ▸ (by simpa using hp)

theorem dropWhile_idem {α : Type} (p : α → Bool) (l : List α) :
    (l.dropWhile p).dropWhile p = l.dropWhile p := by
  cases h : l.dropWhile p with
  | nil => rfl
  | cons c t =>
    rw [List.dropWhile_cons, if_neg]
    rw [dropWhile_head_false p h]
    exact Bool.false_ne_true

/-- Predicate: `x` has no leading whitespace character. -/
def noWsHead (x : Str) : Prop :=
  match x.head? with
  | some c => rustIsWhitespace c = false
  | none => True

theorem noWsHead_trimStart (l : Str) : noWsHead (rustTrimStart l) := by
  unfold noWsHead rustTrimStart
  cases h : l.dropWhile rustIsWhitespace with
  | nil => trivial
  | cons c t => simpa using dropWhile_head_false rustIsWhitespace h

theorem trimStart_eq_self (x : Str) (h : noWsHead x) : rustTrimStart x = x := by
  unfold rustTrimStart
  cases x with
  | nil => rfl
  | cons c t =>
    rw [List.dropWhile_cons, if_neg]
    unfold noWsHead at h
    simp only [List.head?_cons] at h
    rw [h]
    exact Bool.false_ne_true

theorem trimEnd_prefix_of (x : Str) : rustTrimEnd x <+: x := by
  unfold rustTrimEnd
  have h := List.dropWhile_suffix (l := x.reverse) rustIsWhitespace
  have h2 := List.reverse_prefix.mpr h
  simpa using h2

theorem noWsHead_trimEnd (x : Str) (h : noWsHead x) : noWsHead (rustTrimEnd x) := by
  obtain ⟨t, ht⟩ := trimEnd_prefix_of x
  cases he : rustTrimEnd x with
  | nil => trivial
  | cons c t' =>
    unfold noWsHead
    simp only [List.head?_cons]
    have hx : x.head? = some c := by
      rw [← ht, he]
      simp
    unfold noWsHead at h
    rw [hx] at h
    exact h

theorem trimEnd_idem (x : Str) : rustTrimEnd (rustTrimEnd x) = rustTrimEnd x := by
  unfold rustTrimEnd
  rw [List.reverse_reverse, dropWhile_idem]

/-- Rust `trim` is idempotent. -/
theorem rustTrim_idem (l : Str) : rustTrim (rustTrim l) = rustTrim l := by
  unfold rustTrim
  rw [trimStart_eq_self (rustTrimEnd (rustTrimStart l))
        (noWsHead_trimEnd _ (noWsHead_trimStart l)),
      trimEnd_idem]

/-! ### C8: warnings characterize empty and unknown sections -/

/-- The `EmptySection` warning that `flush_section` emits for a section. -/
def mkEmptyWarn (sec : Section) : ParseWarning :=
  ⟨.EmptySection, emptySectionMessage sec.heading⟩

/-- The `UnknownSection` warning that `parse` emits for a section. -/
def mkUnknownWarn (sec : Section) : ParseWarning :=
  ⟨.UnknownSection, unknownSectionMessage sec.heading⟩

/-- The `EmptySection` warnings belonging to a section list. -/
def emptyWarnsOf (secs : List Section) : List ParseWarning :=
  (secs.filter (fun sec => sec.content = [])).map mkEmptyWarn

/-- The `UnknownSection` warnings belonging to a section list. -/
def unknownWarnsOf (secs : List Section) : List ParseWarning :=
  (secs.filter (fun sec => ¬ sec.kind.is_known)).map mkUnknownWarn

/-- Invariant carried through the section segmenter: the warnings so far are
exactly the `EmptySection` warnings of the sections so far, and every stored
section body is trimmed. -/
def warnInv (st : SegState) : Prop :=
  st.warnings = emptyWarnsOf st.sections ∧
  ∀ sec ∈ st.sections, rustTrim sec.content = sec.content

theorem emptyWarnsOf_append (a b : List Section) :
    emptyWarnsOf (a ++ b) = emptyWarnsOf a ++ emptyWarnsOf b := by
  unfold emptyWarnsOf
  rw [List.filter_append, List.map_append]

theorem flush_section_inv (heading : Str) (lines : List Str)
    {secs : List Section} {warns : List ParseWarning}
    (hw : warns = emptyWarnsOf secs)
    (ht : ∀ sec ∈ secs, rustTrim sec.content = sec.content) :
    (flush_section heading lines secs warns).2 =
      emptyWarnsOf (flush_section heading lines secs warns).1 ∧
    ∀ sec ∈ (flush_section heading lines secs warns).1,
      rustTrim sec.content = sec.content := by
  simp only [flush_section]
  constructor
  · rw [emptyWarnsOf_append, hw]
    by_cases hc : rustTrim (joinNl lines) = []
    · rw [if_pos hc]
      have : emptyWarnsOf [⟨heading, rustTrim (joinNl lines)⟩] =
          [⟨.EmptySection, emptySectionMessage heading⟩] := by
        unfold emptyWarnsOf
        rw [List.filter_cons, if_pos (by simpa using hc)]
        rfl
      rw [this]
    · rw [if_neg hc]
      have : emptyWarnsOf [⟨heading, rustTrim (joinNl lines)⟩] = [] := by
        unfold emptyWarnsOf
        rw [List.filter_cons, if_neg (by simpa using hc)]
        rfl
      rw [this, List.append_nil]
  · intro sec hsec
    rcases List.mem_append.mp hsec with h | h
    · exact ht sec h
    · rcases List.mem_singleton.mp h with rfl
      exact rustTrim_idem _

theorem segFence_inv (st : SegState) (t : Str) (h : warnInv st) :
    warnInv (segFence st t) := by
  obtain ⟨hw, ht⟩ := h
  unfold segFence
  split
  · split
    · exact ⟨hw, ht⟩
    · exact ⟨hw, ht⟩
  · split
    · exact ⟨hw, ht⟩
    · exact ⟨hw, ht⟩

theorem segHeading_inv (st : SegState) (line : Str) (h : warnInv st) :
    warnInv (segHeading st line) := by
  obtain ⟨hw, ht⟩ := h
  simp only [segHeading]
  split
  · split
    · exact ⟨hw, ht⟩
    · split
      next hname hh =>
        have hf := flush_section_inv hname st.sectionLines hw ht
        exact ⟨hf.1, hf.2⟩
      next => exact ⟨hw, ht⟩
  · split
    · exact ⟨hw, ht⟩
    · exact ⟨hw, ht⟩

theorem segStep_inv (st : SegState) (line : Str) (h : warnInv st) :
    warnInv (segStep st line) :=
  segHeading_inv _ _ (segFence_inv _ _ h)

theorem foldl_segStep_inv (lines : List Str) (st : SegState) (h : warnInv st) :
    warnInv (lines.foldl segStep st) := by
  induction lines generalizing st with
  | nil => exact h
  | cons l ls ih => exact ih _ (segStep_inv st l h)

theorem parse_sections_inv (content : Str) :
    (parse_sections content).2.2 = emptyWarnsOf (parse_sections content).2.1 ∧
    ∀ sec ∈ (parse_sections content).2.1, rustTrim sec.content = sec.content := by
  have h0 : warnInv segInit := ⟨rfl, by intro sec hsec; cases hsec⟩
  have hinv := foldl_segStep_inv (rustLines content) segInit h0
  obtain ⟨hw, ht⟩ := hinv
  simp only [parse_sections]
  split
  next hname hh =>
    have hf := flush_section_inv hname
      ((rustLines content).foldl segStep segInit).sectionLines hw ht
    exact ⟨hf.1, hf.2⟩
  next => exact ⟨hw, ht⟩

theorem filter_kind_emptyWarnsOf (secs : List Section) :
    (emptyWarnsOf secs).filter (fun w => w.kind = .EmptySection) = emptyWarnsOf secs := by
  rw [List.filter_eq_self]
  intro w hw
  unfold emptyWarnsOf at hw
  obtain ⟨sec, _, rfl⟩ := List.mem_map.mp hw
  simp [mkEmptyWarn]

theorem filter_unknown_emptyWarnsOf (secs : List Section) :
    (emptyWarnsOf secs).filter (fun w => w.kind = .UnknownSection) = [] := by
  rw [List.filter_eq_nil_iff]
  intro w hw
  unfold emptyWarnsOf at hw
  obtain ⟨sec, _, rfl⟩ := List.mem_map.mp hw
  simp [mkEmptyWarn]

theorem filter_kind_unknownWarnsOf (secs : List Section) :
    (unknownWarnsOf secs).filter (fun w => w.kind = .UnknownSection) = unknownWarnsOf secs := by
  rw [List.filter_eq_self]
  intro w hw
  unfold unknownWarnsOf at hw
  obtain ⟨sec, _, rfl⟩ := List.mem_map.mp hw
  simp [mkUnknownWarn]

theorem filter_empty_unknownWarnsOf (secs : List Section) :
    (unknownWarnsOf secs).filter (fun w => w.kind = .EmptySection) = [] := by
  rw [List.filter_eq_nil_iff]
  intro w hw
  unfold unknownWarnsOf at hw
  obtain ⟨sec, _, rfl⟩ := List.mem_map.mp hw
  simp [mkUnknownWarn]

/-- On a successful parse, the structure of `DocComment` fields in terms of
`parse_sections` of the normalized content. -/
theorem parse_ok_structure (s : Str) (d : DocComment) (h : parse s = .ok d) :
    ∃ inner,
      d.sections = (parse_sections (normalize inner)).2.1 ∧
      d.warnings = (parse_sections (normalize inner)).2.2 ++
        unknownWarnsOf (parse_sections (normalize inner)).2.1 := by
  unfold parse at h
  split at h
  next => exact absurd h (by simp)
  next afterOpen hp =>
    split at h
    next => exact absurd h (by simp)
    next inner hsf =>
      refine ⟨inner, ?_⟩
      unfold parseContent at h
      split at h
      next => exact absurd h (by simp)
      next =>
        rcases hps : parse_sections (normalize inner) with ⟨a, b, c⟩
        rw [hps] at h
        simp only [Except.ok.injEq] at h
        rw [← h]
        unfold unknownWarnsOf mkUnknownWarn
        exact ⟨rfl, rfl⟩

/-- C8: after a successful parse, the `EmptySection` warnings are exactly
one per section with empty (trimmed) body, in order, each message naming
that section's heading; the `UnknownSection` warnings are exactly one per
section whose heading classifies as `Unknown`, each message naming that
heading; and every stored section body is already trimmed, so `content = []`
is the same as `trimmed body empty`. -/
theorem c8_warnings_iff (s : Str) (d : DocComment) (h : parse s = .ok d) :
    (d.warnings.filter (fun w => w.kind = .EmptySection) =
      (d.sections.filter (fun sec => sec.content = [])).map mkEmptyWarn) ∧
    (d.warnings.filter (fun w => w.kind = .UnknownSection) =
      (d.sections.filter (fun sec => ¬ sec.kind.is_known)).map mkUnknownWarn) ∧
    (∀ sec ∈ d.sections, rustTrim sec.content = sec.content) := by
  obtain ⟨inner, hsec, hwarn⟩ := parse_ok_structure s d h
  have hinv := parse_sections_inv (normalize inner)
  refine ⟨?_, ?_, ?_⟩
  · rw [hwarn, hsec, List.filter_append, hinv.1, filter_kind_emptyWarnsOf,
      filter_empty_unknownWarnsOf, List.append_nil]
    rfl
  · rw [hwarn, hsec, List.filter_append, hinv.1, filter_unknown_emptyWarnsOf,
      filter_kind_unknownWarnsOf, List.nil_append]
    rfl
  · rw [hsec]
    exact hinv.2

/-- C8 witness: a document with one empty section (`# Note`) and one
unrecognized heading (`# Bogus`); the two warning filters are exactly the
corresponding singleton lists, with messages naming the headings. -/
theorem c8_witness :
    ((parseOk "/**\n  d.\n\n  # Bogus\n\n  x\n\n  # Note\n*/".data).warnings.filter
        (fun w => w.kind = .EmptySection) =
      [⟨.EmptySection, emptySectionMessage "Note".data⟩]) ∧
    ((parseOk "/**\n  d.\n\n  # Bogus\n\n  x\n\n  # Note\n*/".data).warnings.filter
        (fun w => w.kind = .UnknownSection) =
      [⟨.UnknownSection, unknownSectionMessage "Bogus".data⟩]) := by
  have h := c8_warnings_iff "/**\n  d.\n\n  # Bogus\n\n  x\n\n  # Note\n*/".data
    (parseOk "/**\n  d.\n\n  # Bogus\n\n  x\n\n  # Note\n*/".data) (by decide)
  exact ⟨h.1.trans (by decide), h.2.1.trans (by decide)⟩

/-! ### C7: idempotence of normalize (infrastructure) -/

theorem stripCR_of_noCR {l : Str} (h : ∀ c ∈ l, c ≠ '\r') : stripCR l = l := by
  unfold stripCR
  split
  next hl => exact absurd rfl (h _ (List.mem_of_getLast?_eq_some hl))
  next => rfl

theorem rustLinesAux_noNl :
    ∀ (l acc : Str), (∀ c ∈ l, c ≠ '\n') →
      rustLinesAux l acc = if acc.reverse ++ l = [] then [] else [acc.reverse ++ l] := by
  intro l
  induction l with
  | nil =>
    intro acc _
    simp [rustLinesAux]
  | cons c t ih =>
    intro acc h
    have hc : c ≠ '\n' := h c (List.mem_cons_self _ _)
    rw [rustLinesAux, if_neg hc]
    rw [ih (c :: acc) (fun x hx => h x (List.mem_cons_of_mem _ hx))]
    have h1 : (c :: acc).reverse ++ t = acc.reverse ++ c :: t := by simp
    rw [h1]

theorem rustLinesAux_split :
    ∀ (l r acc : Str), (∀ c ∈ l, c ≠ '\n') →
      rustLinesAux (l ++ '\n' :: r) acc =
        stripCR (acc.reverse ++ l) :: rustLinesAux r [] := by
  intro l
  induction l with
  | nil =>
    intro r acc _
    rw [List.nil_append, rustLinesAux, if_pos rfl]
    simp
  | cons c t ih =>
    intro r acc h
    have hc : c ≠ '\n' := h c (List.mem_cons_self _ _)
    rw [List.cons_append, rustLinesAux, if_neg hc]
    rw [ih r (c :: acc) (fun x hx => h x (List.mem_cons_of_mem _ hx))]
    have h1 : (c :: acc).reverse ++ t = acc.reverse ++ c :: t := by simp
    rw [h1]

theorem rustLines_noNl {l : Str} (h : ∀ c ∈ l, c ≠ '\n') (hne : l ≠ []) :
    rustLines l = [l] := by
  unfold rustLines
  rw [rustLinesAux_noNl l [] h]
  simp [hne]

theorem rustLines_split {l r : Str} (h : ∀ c ∈ l, c ≠ '\n') :
    rustLines (l ++ '\n' :: r) = stripCR l :: rustLines r := by
  unfold rustLines
  rw [rustLinesAux_split l r [] h]
  simp

theorem rustLinesAux_mem_noNl :
    ∀ (l acc : Str), (∀ c ∈ acc, c ≠ '\n') →
      ∀ m ∈ rustLinesAux l acc, ∀ c ∈ m, c ≠ '\n' := by
  intro l
  induction l with
  | nil =>
    intro acc hacc m hm
    rw [rustLinesAux] at hm
    split at hm
    · cases hm
    · rcases List.mem_singleton.mp hm with rfl
      intro c hc
      exact hacc c (List.mem_reverse.mp hc)
  | cons a t ih =>
    intro acc hacc m hm
    rw [rustLinesAux] at hm
    by_cases ha : a = '\n'
    · rw [if_pos ha] at hm
      rcases List.mem_cons.mp hm with rfl | hm'
      · intro c hc
        have hc2 : c ∈ acc.reverse := by
          unfold stripCR at hc
          split at hc
          · exact (List.dropLast_sublist _).subset hc
          · exact hc
        exact hacc c (List.mem_reverse.mp hc2)
      · exact ih [] (by intro c hc; cases hc) m hm'
    · rw [if_neg ha] at hm
      refine ih (a :: acc) ?_ m hm
      intro c hc
      rcases List.mem_cons.mp hc with rfl | hc'
      · exact ha
      · exact hacc c hc'

theorem rustLinesAux_mem_chars :
    ∀ (l acc : Str), ∀ m ∈ rustLinesAux l acc, ∀ c ∈ m, c ∈ l ∨ c ∈ acc := by
  intro l
  induction l with
  | nil =>
    intro acc m hm c hc
    rw [rustLinesAux] at hm
    split at hm
    · cases hm
    · rcases List.mem_singleton.mp hm with rfl
      exact Or.inr (List.mem_reverse.mp hc)
  | cons a t ih =>
    intro acc m hm c hc
    rw [rustLinesAux] at hm
    by_cases ha : a = '\n'
    · rw [if_pos ha] at hm
      rcases List.mem_cons.mp hm with rfl | hm'
      · have hc2 : c ∈ acc.reverse := by
          unfold stripCR at hc
          split at hc
          · exact (List.dropLast_sublist _).subset hc
          · exact hc
        exact Or.inr (List.mem_reverse.mp hc2)
      · rcases ih [] m hm' c hc with h | h
        · exact Or.inl (List.mem_cons_of_mem _ h)
        · cases h
    · rw [if_neg ha] at hm
      rcases ih (a :: acc) m hm c hc with h | h
      · exact Or.inl (List.mem_cons_of_mem _ h)
      · rcases List.mem_cons.mp h with rfl | h'
        · exact Or.inl (List.mem_cons_self _ _)
        · exact Or.inr h'

theorem rustLines_mem_noNl {s : Str} {m : Str} (hm : m ∈ rustLines s) :
    ∀ c ∈ m, c ≠ '\n' :=
  rustLinesAux_mem_noNl s [] (by intro c hc; cases hc) m hm

theorem rustLines_mem_noCR {s : Str} (hs : ∀ c ∈ s, c ≠ '\r') {m : Str}
    (hm : m ∈ rustLines s) : ∀ c ∈ m, c ≠ '\r' := by
  intro c hc
  rcases rustLinesAux_mem_chars s [] m hm c hc with h | h
  · exact hs c h
  · cases h

theorem rustLinesAux_ne_nil :
    ∀ (l acc : Str), l ≠ [] ∨ acc ≠ [] → rustLinesAux l acc ≠ [] := by
  intro l
  induction l with
  | nil =>
    intro acc h
    rcases h with h | h
    · exact absurd rfl h
    · rw [rustLinesAux, if_neg h]
      simp
  | cons a t ih =>
    intro acc _
    rw [rustLinesAux]
    by_cases ha : a = '\n'
    · rw [if_pos ha]
      simp
    · rw [if_neg ha]
      exact ih (a :: acc) (Or.inr (by simp))

theorem rustLines_ne_nil {s : Str} (h : s ≠ []) : rustLines s ≠ [] :=
  rustLinesAux_ne_nil s [] (Or.inl h)

theorem joinNl_cons {l : Str} {L : List Str} (h : L ≠ []) :
    joinNl (l :: L) = l ++ '\n' :: joinNl L := by
  cases L with
  | nil => exact absurd rfl h
  | cons a t => rfl

theorem joinNl_concat : ∀ (A : List Str) (b : Str), A ≠ [] →
    joinNl (A ++ [b]) = joinNl A ++ '\n' :: b := by
  intro A
  induction A with
  | nil => intro b h; exact absurd rfl h
  | cons a A' ih =>
    intro b _
    cases A' with
    | nil => rfl
    | cons x t =>
      rw [List.cons_append, joinNl_cons (by simp : (x :: t ++ [b] : List Str) ≠ []),
          ih b (by simp), joinNl_cons (by simp : (x :: t : List Str) ≠ [])]
      simp

/-- Joining then re-splitting recovers the lines, provided no line contains
`\n` or `\r` and the last line is non-empty. -/
theorem rustLines_joinNl :
    ∀ (L : List Str), (∀ l ∈ L, ∀ c ∈ l, c ≠ '\n' ∧ c ≠ '\r') →
      (∀ g, L.getLast? = some g → g ≠ []) →
      rustLines (joinNl L) = L := by
  intro L
  induction L with
  | nil => intro _ _; rfl
  | cons l L' ih =>
    intro hchars hlast
    cases L' with
    | nil =>
      have hl : l ≠ [] := hlast l rfl
      show rustLines (joinNl [l]) = [l]
      have : joinNl [l] = l := rfl
      rw [this, rustLines_noNl (fun c hc => (hchars l (by simp) c hc).1) hl]
    | cons x t =>
      rw [joinNl_cons (by simp)]
      rw [rustLines_split (fun c hc => (hchars l (by simp) c hc).1)]
      rw [stripCR_of_noCR (fun c hc => (hchars l (by simp) c hc).2)]
      rw [ih (fun m hm c hc => hchars m (List.mem_cons_of_mem _ hm) c hc)
          (fun g hg => hlast g (by rw [List.getLast?_cons_cons]; exact hg))]

theorem trimStart_eq_nil_iff {l : Str} :
    rustTrimStart l = [] ↔ l.all rustIsWhitespace = true := by
  unfold rustTrimStart
  rw [List.dropWhile_eq_nil_iff, List.all_eq_true]

theorem trimEnd_eq_nil_iff {x : Str} :
    rustTrimEnd x = [] ↔ x.all rustIsWhitespace = true := by
  unfold rustTrimEnd
  rw [List.reverse_eq_nil_iff, List.dropWhile_eq_nil_iff, ← List.all_eq_true,
      List.all_reverse]

theorem rustTrim_trimStart (l : Str) : rustTrim (rustTrimStart l) = rustTrim l := by
  unfold rustTrim rustTrimStart
  rw [dropWhile_idem]

theorem trimStart_ne_nil {l : Str} (h : rustTrim l ≠ []) : rustTrimStart l ≠ [] := by
  intro hc
  apply h
  unfold rustTrim
  rw [hc]
  rfl

theorem rustTrim_reverse_eq_nil_iff {l : Str} :
    rustTrim l.reverse = [] ↔ rustTrim l = [] := by
  rw [rustTrim_eq_nil_iff, rustTrim_eq_nil_iff, List.all_reverse]

theorem leadingWs_eq_zero {y : Str} (h : noWsHead y) : leadingWs y = 0 := by
  unfold leadingWs
  cases y with
  | nil => rfl
  | cons c t =>
    unfold noWsHead at h
    simp only [List.head?_cons] at h
    rw [List.takeWhile_cons, if_neg (by rw [h]; exact Bool.false_ne_true)]
    rfl

theorem minNat?_le : ∀ (xs : List Nat) (x : Nat), x ∈ xs →
    ∀ m, minNat? xs = some m → m ≤ x := by
  intro xs
  induction xs with
  | nil => intro x hx; cases hx
  | cons a t ih =>
    intro x hx m hm
    rw [minNat?] at hm
    injection hm with hm
    rcases List.mem_cons.mp hx with rfl | hx'
    · cases ht : minNat? t with
      | none => rw [ht] at hm; simpa using hm.symm.le
      | some mt =>
        rw [ht] at hm
        simp only at hm
        exact hm ▸ Nat.min_le_left _ _
    · cases ht : minNat? t with
      | none =>
        cases t with
        | nil => cases hx'
        | cons b t' => rw [minNat?] at ht; cases ht
      | some mt =>
        have := ih x hx' mt ht
        rw [ht] at hm
        simp only at hm
        exact hm ▸ Nat.le_trans (Nat.min_le_right _ _) this

theorem minNat?_getD_zero {xs : List Nat} (h : 0 ∈ xs) : (minNat? xs).getD 0 = 0 := by
  cases xs with
  | nil => cases h
  | cons a t =>
    cases hm : minNat? (a :: t) with
    | none => rw [minNat?] at hm; cases hm
    | some m =>
      have := minNat?_le (a :: t) 0 h m hm
      simp [Nat.le_zero.mp this]

theorem nonblank_drop {l : Str} {k : Nat} (hk : k ≤ leadingWs l)
    (h : rustTrim l ≠ []) : rustTrim (l.drop k) ≠ [] := by
  intro hc
  apply h
  rw [rustTrim_eq_nil_iff] at hc ⊢
  have hsplit : l.drop k = (l.takeWhile rustIsWhitespace).drop k ++
      l.dropWhile rustIsWhitespace := by
    rw [← List.drop_append_of_le_length hk, List.takeWhile_append_dropWhile]
  rw [hsplit, List.all_append] at hc
  rw [← List.takeWhile_append_dropWhile rustIsWhitespace l, List.all_append]
  refine (Bool.and_eq_true _ _).mpr ⟨?_, ((Bool.and_eq_true _ _).mp hc).2⟩
  rw [List.all_eq_true]
  intro c hcm
  exact List.mem_takeWhile_imp hcm

/-- Where trimming the start of a joined line list lands: either everything
is whitespace, or some suffix of the lines survives with its first line
start-trimmed. -/
theorem trimStart_joinNl :
    ∀ (L : List Str), (∀ l ∈ L, l = [] ∨ rustTrim l ≠ []) →
      rustTrimStart (joinNl L) = [] ∨
        ∃ l₀ L', (l₀ :: L') <:+ L ∧ rustTrim l₀ ≠ [] ∧
          rustTrimStart (joinNl L) = joinNl (rustTrimStart l₀ :: L') := by
  intro L
  induction L with
  | nil => intro _; exact Or.inl rfl
  | cons l L' ih =>
    intro hgood
    by_cases hl : l = []
    · subst hl
      cases L' with
      | nil => exact Or.inl rfl
      | cons x t =>
        have hjoin : joinNl ([] :: x :: t) = '\n' :: joinNl (x :: t) :=
          joinNl_cons (by simp)
        have hts : rustTrimStart (joinNl ([] :: x :: t)) =
            rustTrimStart (joinNl (x :: t)) := by
          rw [hjoin]
          unfold rustTrimStart
          rw [List.dropWhile_cons, if_pos (by decide)]
        rcases ih (fun m hm => hgood m (List.mem_cons_of_mem _ hm)) with h0 | ⟨l₀, L'', hsuf, hnb, heq⟩
        · exact Or.inl (hts.trans h0)
        · exact Or.inr ⟨l₀, L'', hsuf.trans (List.suffix_cons _ _), hnb, hts.trans heq⟩
    · have hnb : rustTrim l ≠ [] := (hgood l (List.mem_cons_self _ _)).resolve_left hl
      refine Or.inr ⟨l, L', List.suffix_refl _, hnb, ?_⟩
      cases L' with
      | nil => rfl
      | cons x t =>
        rw [joinNl_cons (by simp : (x :: t : List Str) ≠ []),
            joinNl_cons (by simp : (x :: t : List Str) ≠ [])]
        show rustTrimStart (l ++ '\n' :: joinNl (x :: t)) = _
        unfold rustTrimStart
        rw [List.dropWhile_append]
        rw [if_neg]
        rw [List.isEmpty_iff]
        exact trimStart_ne_nil hnb

/-- Line-wise reversal: reverse each line and reverse the line order, so
that joining commutes with string reversal. -/
def revL (L : List Str) : List Str := (L.map List.reverse).reverse

theorem joinNl_revL : ∀ (L : List Str), joinNl (revL L) = (joinNl L).reverse := by
  intro L
  induction L with
  | nil => rfl
  | cons l M ih =>
    cases M with
    | nil => simp [revL, joinNl]
    | cons x t =>
      have h1 : revL (l :: x :: t) = revL (x :: t) ++ [l.reverse] := by
        simp [revL]
      rw [h1, joinNl_concat _ _ (by simp [revL]), ih,
          joinNl_cons (by simp : (x :: t : List Str) ≠ [])]
      simp

theorem mem_revL {L : List Str} {m : Str} (h : m ∈ revL L) :
    ∃ l ∈ L, m = l.reverse := by
  unfold revL at h
  obtain ⟨l, hl, rfl⟩ := List.mem_map.mp (List.mem_reverse.mp h)
  exact ⟨l, hl, rfl⟩

theorem trimEnd_eq (x : Str) : rustTrimEnd x = (rustTrimStart x.reverse).reverse := rfl

theorem head?_revL (L : List Str) :
    (revL L).head? = L.getLast?.map List.reverse := by
  unfold revL
  rw [List.head?_reverse, List.getLast?_map]

theorem getLast?_revL (L : List Str) :
    (revL L).getLast? = L.head?.map List.reverse := by
  unfold revL
  rw [List.getLast?_reverse, List.head?_map]

theorem getLast?_of_suffix {α : Type} {l₁ l₂ : List α} (h : l₁ <:+ l₂)
    {a : α} (ha : l₁.getLast? = some a) : l₂.getLast? = some a := by
  obtain ⟨t, rfl⟩ := h
  rw [List.getLast?_append, ha]
  rfl

/-- Where trimming a joined line list lands: a line list `G` whose lines are
`\n`- and `\r`-free (given the input lines were), each blank line empty
(given the input's were), whose first line is non-blank with no leading
whitespace and whose last line is non-empty. -/
theorem trim_joinNl (L : List Str)
    (hchars : ∀ l ∈ L, ∀ c ∈ l, c ≠ '\n' ∧ c ≠ '\r')
    (hblank : ∀ l ∈ L, l = [] ∨ rustTrim l ≠ []) :
    ∃ G, rustTrim (joinNl L) = joinNl G ∧
      (∀ l ∈ G, ∀ c ∈ l, c ≠ '\n' ∧ c ≠ '\r') ∧
      (∀ l ∈ G, l = [] ∨ rustTrim l ≠ []) ∧
      (∀ g, G.head? = some g → rustTrim g ≠ [] ∧ leadingWs g = 0) ∧
      (∀ g, G.getLast? = some g → g ≠ []) := by
  rcases trimStart_joinNl L hblank with h0 | ⟨l₀, L', hsuf, hnb, heq⟩
  · refine ⟨[], ?_, by simp, by simp, by simp, by simp⟩
    unfold rustTrim
    rw [h0]
    rfl
  · -- The start-trimmed join is `joinNl (tl :: L')`.
    have hsubE : ∀ m ∈ l₀ :: L', m ∈ L := fun m hm => hsuf.subset hm
    have hcharsE : ∀ m ∈ rustTrimStart l₀ :: L', ∀ c ∈ m, c ≠ '\n' ∧ c ≠ '\r' := by
      intro m hm c hc
      rcases List.mem_cons.mp hm with rfl | hm'
      · exact hchars l₀ (hsubE l₀ (List.mem_cons_self _ _)) c
          ((List.dropWhile_sublist _).subset hc)
      · exact hchars m (hsubE m (List.mem_cons_of_mem _ hm')) c hc
    have hblankE : ∀ m ∈ rustTrimStart l₀ :: L', m = [] ∨ rustTrim m ≠ [] := by
      intro m hm
      rcases List.mem_cons.mp hm with rfl | hm'
      · exact Or.inr (by rw [rustTrim_trimStart]; exact hnb)
      · exact hblank m (hsubE m (List.mem_cons_of_mem _ hm'))
    have htl : noWsHead (rustTrimStart l₀) := noWsHead_trimStart l₀
    have htlnb : rustTrim (rustTrimStart l₀) ≠ [] := by
      rw [rustTrim_trimStart]; exact hnb
    have hblankRev : ∀ m ∈ revL (rustTrimStart l₀ :: L'), m = [] ∨ rustTrim m ≠ [] := by
      intro m hm
      obtain ⟨l, hl, rfl⟩ := mem_revL hm
      rcases hblankE l hl with rfl | hlnb
      · exact Or.inl rfl
      · exact Or.inr (fun hc => hlnb (rustTrim_reverse_eq_nil_iff.mp hc))
    have hrev : (joinNl (rustTrimStart l₀ :: L')).reverse =
        joinNl (revL (rustTrimStart l₀ :: L')) := (joinNl_revL _).symm
    rcases trimStart_joinNl (revL (rustTrimStart l₀ :: L')) hblankRev with h1 | ⟨f₀, F', hsuf2, hnb2, heq2⟩
    · refine ⟨[], ?_, by simp, by simp, by simp, by simp⟩
      unfold rustTrim
      rw [heq, trimEnd_eq, hrev, h1]
      rfl
    · -- The fully trimmed join is `joinNl (revL (tf :: F'))`.
      refine ⟨revL (rustTrimStart f₀ :: F'), ?_, ?_, ?_, ?_, ?_⟩
      · unfold rustTrim
        rw [heq, trimEnd_eq, hrev, heq2, ← joinNl_revL]
      · -- character conditions
        intro m hm c hc
        obtain ⟨l, hl, rfl⟩ := mem_revL hm
        have hcl : c ∈ l := List.mem_reverse.mp hc
        rcases List.mem_cons.mp hl with rfl | hl'
        · obtain ⟨e, he, rfl⟩ := mem_revL (hsuf2.subset (List.mem_cons_self f₀ F'))
          exact hcharsE e he c
            (List.mem_reverse.mp ((List.dropWhile_sublist _).subset hcl))
        · obtain ⟨e, he, rfl⟩ := mem_revL (hsuf2.subset (List.mem_cons_of_mem _ hl'))
          exact hcharsE e he c (List.mem_reverse.mp hcl)
      · -- blank lines are empty
        intro m hm
        obtain ⟨l, hl, rfl⟩ := mem_revL hm
        rcases List.mem_cons.mp hl with rfl | hl'
        · refine Or.inr (fun hc => ?_)
          have := rustTrim_reverse_eq_nil_iff.mp hc
          rw [rustTrim_trimStart] at this
          exact hnb2 this
        · rcases hblankRev l (hsuf2.subset (List.mem_cons_of_mem _ hl')) with rfl | hlnb
          · exact Or.inl rfl
          · exact Or.inr (fun hc => hlnb (rustTrim_reverse_eq_nil_iff.mp hc))
      · -- first line: non-blank, zero leading whitespace
        intro g hg
        rw [head?_revL] at hg
        cases F' with
        | nil =>
          have hg' : g = (rustTrimStart f₀).reverse := by
            simp at hg
            exact hg.symm
          -- f₀ is the last line of revL (tl :: L'), i.e. tl reversed
          have hf₀ : (rustTrimStart l₀).reverse = f₀ := by
            have h2 : (revL (rustTrimStart l₀ :: L')).getLast? = some f₀ :=
              getLast?_of_suffix hsuf2 (by simp)
            rw [getLast?_revL] at h2
            simp at h2
            exact h2
          subst hg'
          rw [← hf₀]
          constructor
          · intro hc
            rw [rustTrim_reverse_eq_nil_iff, rustTrim_trimStart,
                rustTrim_reverse_eq_nil_iff, rustTrim_trimStart] at hc
            exact hnb hc
          · have hEnd : (rustTrimStart ((rustTrimStart l₀).reverse)).reverse =
                rustTrimEnd (rustTrimStart l₀) := (trimEnd_eq (rustTrimStart l₀)).symm
            rw [hEnd]
            exact leadingWs_eq_zero (noWsHead_trimEnd _ htl)
        | cons x t =>
          rw [List.getLast?_cons_cons] at hg
          obtain ⟨a, ha⟩ : ∃ a, (x :: t).getLast? = some a := by
            cases h : (x :: t).getLast? with
            | none =>
              exact absurd (List.getLast?_eq_none_iff.mp h) (by simp)
            | some a => exact ⟨a, rfl⟩
          have hwhole : (revL (rustTrimStart l₀ :: L')).getLast? = some a :=
            getLast?_of_suffix hsuf2 (by rw [List.getLast?_cons_cons, ha])
          have hatl : (rustTrimStart l₀).reverse = a := by
            rw [getLast?_revL] at hwhole
            simp at hwhole
            exact hwhole
          have hgeq : g = rustTrimStart l₀ := by
            rw [ha] at hg
            simp at hg
            rw [← hg, ← hatl, List.reverse_reverse]
          subst hgeq
          exact ⟨htlnb, leadingWs_eq_zero htl⟩

      · -- last line non-empty
        intro g hg
        rw [getLast?_revL] at hg
        simp only [List.head?_cons, Option.map_some] at hg
        injection hg with hg
        subst hg
        intro hc
        rw [List.reverse_eq_nil_iff] at hc
        exact trimStart_ne_nil hnb2 hc

/-- The common indentation `normalize` strips (its `min_indent` local). -/
def minIndentOf (s : Str) : Nat :=
  (minNat? (((rustLines s).filter (fun l => rustTrim l ≠ [])).map leadingWs)).getD 0

/-- The dedented lines of `normalize` (its `dedented` local). -/
def dedentLines (s : Str) : List Str :=
  (rustLines s).map (fun l => if rustTrim l = [] then [] else l.drop (minIndentOf s))

theorem normalize_eq_dedent (s : Str) :
    normalize s = rustTrim (joinNl (dedentLines s)) := rfl

theorem dedentLines_chars (s : Str) (hs : ∀ c ∈ s, c ≠ '\r') :
    ∀ l ∈ dedentLines s, ∀ c ∈ l, c ≠ '\n' ∧ c ≠ '\r' := by
  intro l hl c hc
  unfold dedentLines at hl
  obtain ⟨m, hm, rfl⟩ := List.mem_map.mp hl
  by_cases hb : rustTrim m = []
  · rw [if_pos hb] at hc
    cases hc
  · rw [if_neg hb] at hc
    have hcm : c ∈ m := (List.drop_suffix _ _).sublist.subset hc
    exact ⟨rustLines_mem_noNl hm c hcm, rustLines_mem_noCR hs hm c hcm⟩

theorem minNat?_mem_some {xs : List Nat} {x : Nat} (h : x ∈ xs) :
    ∃ m, minNat? xs = some m := by
  cases xs with
  | nil => cases h
  | cons a t => exact ⟨_, rfl⟩

theorem dedentLines_blank (s : Str) :
    ∀ l ∈ dedentLines s, l = [] ∨ rustTrim l ≠ [] := by
  intro l hl
  unfold dedentLines at hl
  obtain ⟨m, hm, rfl⟩ := List.mem_map.mp hl
  by_cases hb : rustTrim m = []
  · rw [if_pos hb]
    exact Or.inl rfl
  · rw [if_neg hb]
    refine Or.inr (nonblank_drop ?_ hb)
    have hmem : leadingWs m ∈
        ((rustLines s).filter (fun l => rustTrim l ≠ [])).map leadingWs :=
      List.mem_map_of_mem _ (List.mem_filter.mpr ⟨hm, by simpa using hb⟩)
    obtain ⟨mv, hmv⟩ := minNat?_mem_some hmem
    unfold minIndentOf
    rw [hmv]
    exact minNat?_le _ _ hmem mv hmv

/-- C7 (amended): on inputs free of carriage returns, `normalize` is
idempotent. -/
theorem c7_normalize_idem (s : Str) (hs : ∀ c ∈ s, c ≠ '\r') :
    normalize (normalize s) = normalize s := by
  obtain ⟨G, hG, hGchars, hGblank, hGhead, hGlast⟩ :=
    trim_joinNl (dedentLines s) (dedentLines_chars s hs) (dedentLines_blank s)
  have ht : normalize s = joinNl G := (normalize_eq_dedent s).trans hG
  rw [ht]
  cases G with
  | nil => rfl
  | cons g₀ G' =>
    have hhead := hGhead g₀ rfl
    have hlines : rustLines (joinNl (g₀ :: G')) = g₀ :: G' :=
      rustLines_joinNl _ hGchars hGlast
    have hmin : minIndentOf (joinNl (g₀ :: G')) = 0 := by
      unfold minIndentOf
      rw [hlines]
      apply minNat?_getD_zero
      have h1 : g₀ ∈ (g₀ :: G').filter (fun l => rustTrim l ≠ []) :=
        List.mem_filter.mpr ⟨List.mem_cons_self _ _, by simpa using hhead.1⟩
      have h2 := List.mem_map_of_mem leadingWs h1
      exact hhead.2 ▸ h2
    have hded : dedentLines (joinNl (g₀ :: G')) = g₀ :: G' := by
      unfold dedentLines
      rw [hlines, hmin]
      have hpt : ∀ l ∈ g₀ :: G', (if rustTrim l = [] then [] else l.drop 0) = l := by
        intro l hl
        by_cases hb : rustTrim l = []
        · rw [if_pos hb]
          rcases hGblank l hl with rfl | hnb
          · rfl
          · exact absurd hb hnb
        · rw [if_neg hb, List.drop_zero]
      rw [List.map_congr_left hpt]
      simp
    rw [normalize_eq_dedent, hded]
    conv_lhs => rw [← hG, rustTrim_idem, hG]

/-- C7 (counterexample): normalize is not idempotent in general — a `\r\r\n`
sequence loses one `\r` per pass, because Rust `lines` strips the `\r` of a
`\r\n` pair while `\r` also counts as trimmable whitespace. -/
theorem c7_counterexample :
    normalize (normalize "a\r\r\nb".data) ≠ normalize "a\r\r\nb".data := by
  decide

/-- C7 witness: idempotence applied at a concrete carriage-return-free
input. -/
theorem c7_witness :
    normalize (normalize "  a\n    b".data) = normalize "  a\n    b".data :=
  c7_normalize_idem "  a\n    b".data (by decide)

end Nixdoc
